import Mathlib

/-!
Verification of the llama JNI streaming text-generation core
(`app/src/main/cpp/llama/llama_jni.cpp`).

Byte sequences are modelled as `List Nat` (each element one byte of the
C `std::string`).  The fuel argument of `utf8Scan` is an embedding
artifact: the C `while` loop advances its index by at least one byte per
iteration, so fuel equal to the length of the data is never exhausted;
`utf8Scan_fuel` proves fuel-irrelevance above that bound.
-/

namespace GrapheneLlama

/-- Byte classification of `getValidUtf8Length`: length implied by a lead
byte (1,2,3,4), or 0 for a continuation byte or invalid start byte
(both are skipped by the scanner). -/
def leadLen (c : Nat) : Nat :=
  if c < 0x80 then 1
  else if c &&& 0xE0 = 0xC0 then 2
  else if c &&& 0xF0 = 0xE0 then 3
  else if c &&& 0xF8 = 0xF0 then 4
  else 0

/-- The continuation-byte test `(b & 0xC0) == 0x80` applied to a list
(the inner validation loop of `getValidUtf8Length`). -/
def contOk (l : List Nat) : Bool :=
  l.all (fun b => decide (b &&& 0xC0 = 0x80))

/-- The scanning loop of `getValidUtf8Length`.  `i` is the C index into
the original data (the list argument is the data from `i` on), `vl` is
`valid_len`. -/
def utf8Scan : Nat → List Nat → Nat → Nat → Nat
  | _, [], _, vl => vl
  | 0, _ :: _, _, vl => vl
  | f + 1, c :: rest, i, vl =>
    let n := leadLen c
    if n = 0 then utf8Scan f rest (i + 1) vl
    else if rest.length + 1 < n then vl
    else if contOk (rest.take (n - 1)) = true then
      utf8Scan f (rest.drop (n - 1)) (i + n) (i + n)
    else utf8Scan f rest (i + 1) vl

/-- `getValidUtf8Length` from llama_jni.cpp lines 28-83. -/
def getValidUtf8Length (data : List Nat) : Nat :=
  utf8Scan data.length data 0 0

/-- `makeValidUtf8` from llama_jni.cpp lines 89-106: prepends the
incomplete buffer, emits the scanned prefix, retains the remainder.
Returns (emitted bytes, new incomplete buffer). -/
def makeValidUtf8 (input buffer : List Nat) : List Nat × List Nat :=
  let combined := buffer ++ input
  if combined = [] then ([], [])
  else
    let v := getValidUtf8Length combined
    (combined.take v, combined.drop v)

/-- Drive the reassembler over a sequence of push calls starting from a
given buffer; collects the emissions and the final buffer. -/
def pushAll : List (List Nat) → List Nat → List (List Nat) × List Nat
  | [], buf => ([], buf)
  | p :: ps, buf =>
    let r := makeValidUtf8 p buf
    let rest := pushAll ps r.2
    (r.1 :: rest.1, rest.2)

/-- All bytes emitted by a sequence of push calls followed by the final
flush (a last `makeValidUtf8` call with empty input). -/
def runEmissions (ps : List (List Nat)) : List Nat :=
  (pushAll ps []).1.flatten ++ (makeValidUtf8 [] (pushAll ps []).2).1

/-- A single complete UTF-8 code unit sequence as classified by the
scanner: a lead byte whose implied length matches, with well-formed
continuation bytes. -/
def isUnit : List Nat → Bool
  | [] => false
  | c :: cs => decide (leadLen c ≠ 0) && decide (cs.length + 1 = leadLen c) && contOk cs

/-- A byte list that is a concatenation of complete UTF-8 code units
(covers in particular every valid UTF-8 encoded string). -/
inductive Utf8Chars : List Nat → Prop
  | nil : Utf8Chars []
  | cons (u s : List Nat) : isUnit u = true → Utf8Chars s → Utf8Chars (u ++ s)

/-- A strictly incomplete beginning of a single code unit: empty, or a
lead byte followed by too few (well-formed) continuation bytes. -/
def IncompletePrefix (p : List Nat) : Prop :=
  p = [] ∨ ∃ c cs, p = c :: cs ∧ leadLen c ≠ 0 ∧ cs.length + 1 < leadLen c ∧ contOk cs = true

/-- Modelled from the spec: the longest prefix of the input that decodes
as a sequence of complete well-formed UTF-8 code points ("the
valid-UTF-8-decodable prefix of the full input").  Stops at the first
byte that does not begin a complete valid code unit. -/
def specPrefixScan : Nat → List Nat → Nat
  | _, [] => 0
  | 0, _ :: _ => 0
  | f + 1, c :: rest =>
    let n := leadLen c
    if n = 0 then 0
    else if rest.length + 1 < n then 0
    else if contOk (rest.take (n - 1)) = true then n + specPrefixScan f (rest.drop (n - 1))
    else 0

/-- Modelled from the spec: the valid-UTF-8-decodable prefix itself. -/
def utf8DecodablePrefix (l : List Nat) : List Nat :=
  l.take (specPrefixScan l.length l)

/-- Splitting a byte string at position `k` and feeding the two halves
through two `push` calls plus a final `flush`; the concatenation of the
three emissions. -/
def reassemble2 (s : List Nat) (k : Nat) : List Nat :=
  let r1 := makeValidUtf8 (s.take k) []
  let r2 := makeValidUtf8 (s.drop k) r1.2
  let r3 := makeValidUtf8 [] r2.2
  r1.1 ++ r2.1 ++ r3.1

section Utf8Lemmas

lemma makeValid_eq (input buffer : List Nat) :
    makeValidUtf8 input buffer =
      ((buffer ++ input).take (getValidUtf8Length (buffer ++ input)),
       (buffer ++ input).drop (getValidUtf8Length (buffer ++ input))) := by
  unfold makeValidUtf8
  by_cases h : buffer ++ input = []
  · simp [h]
  · simp [h]

lemma makeValid_join (input buffer : List Nat) :
    (makeValidUtf8 input buffer).1 ++ (makeValidUtf8 input buffer).2 = buffer ++ input := by
  rw [makeValid_eq]
  exact List.take_append_drop _ _

lemma pushAll_join (ps : List (List Nat)) (buf : List Nat) :
    (pushAll ps buf).1.flatten ++ (pushAll ps buf).2 = buf ++ ps.flatten := by
  induction ps generalizing buf with
  | nil => simp [pushAll]
  | cons p ps ih =>
    simp only [pushAll, List.flatten_cons, List.append_assoc]
    rw [ih, ← List.append_assoc, makeValid_join, List.append_assoc]

lemma utf8Scan_fuel (f : Nat) : ∀ (g : Nat) (l : List Nat) (i v : Nat),
    l.length ≤ f → l.length ≤ g → utf8Scan f l i v = utf8Scan g l i v := by
  induction f with
  | zero =>
    intro g l i v hf _
    have hl : l = [] := List.length_eq_zero.mp (by omega)
    subst hl
    cases g <;> rfl
  | succ f ih =>
    intro g l i v hf hg
    match l with
    | [] => cases g <;> rfl
    | c :: rest =>
      match g with
      | 0 => simp at hg
      | g + 1 =>
        simp only [utf8Scan]
        simp only [List.length_cons] at hf hg
        by_cases h0 : leadLen c = 0
        · simp only [h0, if_pos rfl]
          exact ih g rest (i + 1) v (by omega) (by omega)
        · simp only [if_neg h0]
          by_cases h1 : rest.length + 1 < leadLen c
          · simp [h1]
          · simp only [if_neg h1]
            by_cases h2 : contOk (rest.take (leadLen c - 1)) = true
            · simp only [if_pos h2]
              refine ih g _ _ _ ?_ ?_ <;>
                simp only [List.length_drop] <;> omega
            · simp only [if_neg h2]
              exact ih g rest (i + 1) v (by omega) (by omega)

lemma isUnit_elim {c : Nat} {cs : List Nat} (h : isUnit (c :: cs) = true) :
    leadLen c ≠ 0 ∧ cs.length + 1 = leadLen c ∧ contOk cs = true := by
  simp only [isUnit, Bool.and_eq_true, decide_eq_true_eq] at h
  exact ⟨h.1.1, h.1.2, h.2⟩

lemma utf8Scan_append_valid {s : List Nat} (h : Utf8Chars s) :
    ∀ (t : List Nat) (i f : Nat), (s ++ t).length ≤ f →
      utf8Scan f (s ++ t) i i = utf8Scan t.length t (i + s.length) (i + s.length) := by
  induction h with
  | nil =>
    intro t i f hf
    simp only [List.nil_append, List.length_nil, Nat.add_zero] at *
    exact utf8Scan_fuel f t.length t i i hf le_rfl
  | cons u s hu hs ih =>
    intro t i f hf
    match u, hu with
    | c :: cs, hu =>
      obtain ⟨h0, hlen, hcont⟩ := isUnit_elim hu
      simp only [List.length_append, List.length_cons] at hf
      match f with
      | 0 => omega
      | f + 1 =>
        have heq : (c :: cs ++ s) ++ t = c :: (cs ++ (s ++ t)) := by simp
        rw [heq]
        simp only [utf8Scan]
        rw [if_neg h0]
        have hnl : ¬ ((cs ++ (s ++ t)).length + 1 < leadLen c) := by
          simp only [List.length_append, not_lt]; omega
        rw [if_neg hnl]
        have htake : (cs ++ (s ++ t)).take (leadLen c - 1) = cs := by
          have he : leadLen c - 1 = cs.length := by omega
          rw [he]
          exact List.take_left cs (s ++ t)
        rw [htake, if_pos hcont]
        have hdrop : (cs ++ (s ++ t)).drop (leadLen c - 1) = s ++ t := by
          have he : leadLen c - 1 = cs.length := by omega
          rw [he]
          exact List.drop_left cs (s ++ t)
        rw [hdrop]
        have hfb : (s ++ t).length ≤ f := by
          simp only [List.length_append]; omega
        rw [ih t (i + leadLen c) f hfb]
        have harith : i + leadLen c + s.length = i + (c :: cs ++ s).length := by
          simp only [List.length_append, List.length_cons]; omega
        rw [harith]

lemma utf8Scan_incomplete {p : List Nat} (h : IncompletePrefix p) (i f : Nat) :
    utf8Scan f p i i = i := by
  rcases h with h | ⟨c, cs, hp, h0, hlt, _⟩
  · subst h; cases f <;> rfl
  · subst hp
    match f with
    | 0 => rfl
    | f + 1 =>
      simp only [utf8Scan]
      rw [if_neg h0, if_pos (by simpa using hlt)]

lemma getValid_of_valid_incomplete {s p : List Nat}
    (hs : Utf8Chars s) (hp : IncompletePrefix p) :
    getValidUtf8Length (s ++ p) = s.length := by
  unfold getValidUtf8Length
  rw [utf8Scan_append_valid hs p 0 _ le_rfl]
  rw [utf8Scan_incomplete hp]
  omega

lemma getValid_of_valid {s : List Nat} (hs : Utf8Chars s) :
    getValidUtf8Length s = s.length := by
  have := getValid_of_valid_incomplete hs (Or.inl rfl)
  simpa using this

lemma contOk_take {l : List Nat} (h : contOk l = true) (n : Nat) :
    contOk (l.take n) = true := by
  simp only [contOk, List.all_eq_true] at *
  intro b hb
  exact h b (List.mem_of_mem_take hb)

/-- Any split position of a unit-concatenation decomposes it into a valid
part up to the last unit boundary before the split, an incomplete unit
beginning, and a valid remainder from the boundary on. -/
lemma utf8_split {s : List Nat} (h : Utf8Chars s) :
    ∀ k : Nat, ∃ j, j ≤ k ∧ j ≤ s.length ∧ Utf8Chars (s.take j) ∧
      IncompletePrefix ((s.take k).drop j) ∧ Utf8Chars (s.drop j) := by
  induction h with
  | nil =>
    intro k
    exact ⟨0, Nat.zero_le _, Nat.zero_le _, Utf8Chars.nil, Or.inl (by simp), Utf8Chars.nil⟩
  | cons u s hu hs ih =>
    intro k
    by_cases hk : k < u.length
    · refine ⟨0, Nat.zero_le _, Nat.zero_le _, Utf8Chars.nil, ?_, Utf8Chars.cons u s hu hs⟩
      simp only [List.drop_zero]
      have htk : (u ++ s).take k = u.take k := by
        rw [List.take_append_eq_append_take]
        have : k - u.length = 0 := by omega
        simp [this]
      rw [htk]
      match u, hu with
      | c :: cs, hu =>
        obtain ⟨h0, hlen, hcont⟩ := isUnit_elim hu
        match k with
        | 0 => exact Or.inl rfl
        | k + 1 =>
          refine Or.inr ⟨c, cs.take k, by simp, h0, ?_, contOk_take hcont k⟩
          simp only [List.length_take, List.length_cons] at hk ⊢
          omega
    · push_neg at hk
      obtain ⟨j, hj1, hj2, hv1, hinc, hv2⟩ := ih (k - u.length)
      refine ⟨u.length + j, by omega, ?_, ?_, ?_, ?_⟩
      · simp only [List.length_append]; omega
      · have he : (u ++ s).take (u.length + j) = u ++ s.take j := by
          rw [List.take_append_eq_append_take]
          have h1 : u.take (u.length + j) = u := List.take_of_length_le (by omega)
          have h2 : u.length + j - u.length = j := by omega
          rw [h1, h2]
        rw [he]
        exact Utf8Chars.cons u _ hu hv1
      · have h1 : (u ++ s).take k = u ++ s.take (k - u.length) := by
          rw [List.take_append_eq_append_take]
          congr 1
          exact List.take_of_length_le hk
        rw [h1, List.drop_append_eq_append_drop]
        have : u.length + j - u.length = j := by omega
        simp only [this]
        have : u.drop (u.length + j) = [] := by
          apply List.drop_eq_nil_of_le; omega
        simp [this]
        exact hinc
      · have : (u ++ s).drop (u.length + j) = s.drop j := by
          rw [List.drop_append_eq_append_drop]
          have h1 : u.drop (u.length + j) = [] := by
            apply List.drop_eq_nil_of_le; omega
          have h2 : u.length + j - u.length = j := by omega
          simp [h1, h2]
        rw [this]
        exact hv2

lemma utf8Chars_head : ∀ {l : List Nat}, Utf8Chars l →
    ∀ c r, l = c :: r → leadLen c ≠ 0 := by
  intro l h
  cases h with
  | nil => intro c r hcr; cases hcr
  | cons u s hu hs =>
    intro c r hcr
    match u, hu with
    | [], hu => simp [isUnit] at hu
    | c' :: cs, hu =>
      obtain ⟨h0, _, _⟩ := isUnit_elim hu
      have hcc : c' = c := by
        simp only [List.cons_append, List.cons.injEq] at hcr
        exact hcr.1
      rwa [hcc] at h0

lemma ascii_utf8Chars : ∀ {l : List Nat}, (∀ b ∈ l, b < 128) → Utf8Chars l := by
  intro l
  induction l with
  | nil => intro _; exact Utf8Chars.nil
  | cons c t ih =>
    intro h
    have hc : c < 128 := h c (List.mem_cons_self c t)
    have hu : isUnit [c] = true := by
      simp [isUnit, leadLen, contOk, if_pos hc]
    have := Utf8Chars.cons [c] t hu (ih (fun b hb => h b (List.mem_cons_of_mem c hb)))
    simpa using this

end Utf8Lemmas

/-- Claim C1 (counterexample to the general half): a stray continuation
byte 0x80 followed by the ASCII byte `A` is emitted in full by the
reassembler (0x80 is skipped but still counted into `valid_len` once the
following `A` validates), while the valid-UTF-8-decodable prefix of the
input is empty.  So the concatenated emissions do not equal the
valid-UTF-8-decodable prefix of the full input. -/
theorem claim1_counterexample :
    runEmissions [[0x80, 0x41]] = [0x80, 0x41] ∧
    utf8DecodablePrefix [0x80, 0x41] = [] ∧
    runEmissions [[0x80, 0x41]] ≠ utf8DecodablePrefix [0x80, 0x41] := by
  decide

/-- Claim C1 (amended): (1) for every sequence of `push` calls plus the
final `flush()`, the concatenated emissions form a prefix of the full
input — but not necessarily its valid-UTF-8-decodable prefix, since
bytes skipped during resynchronization are emitted together with the
next complete code unit; (2) the second half holds as stated: for every
valid UTF-8 string and every byte position at which it is split into two
`push` calls, the concatenation of the emissions plus flush reassembles
exactly the original string. -/
theorem claim1_amended :
    (∀ ps : List (List Nat), ∃ t, runEmissions ps ++ t = ps.flatten) ∧
    (∀ (s : List Nat) (k : Nat), Utf8Chars s → reassemble2 s k = s) := by
  constructor
  · intro ps
    refine ⟨(makeValidUtf8 [] (pushAll ps []).2).2, ?_⟩
    unfold runEmissions
    rw [List.append_assoc, makeValid_join]
    have := pushAll_join ps []
    simpa using this
  · intro s k hs
    obtain ⟨j, hj1, hj2, hv1, hinc, hv2⟩ := utf8_split hs k
    have htt : (s.take k).take j = s.take j := by
      rw [List.take_take]
      congr 1
      omega
    have hdecomp : s.take k = s.take j ++ (s.take k).drop j := by
      conv_lhs => rw [← List.take_append_drop j (s.take k)]
      rw [htt]
    have hlenj : (s.take j).length = j := by
      rw [List.length_take]; omega
    have hv : getValidUtf8Length (s.take k) = j := by
      conv_lhs => rw [hdecomp]
      rw [getValid_of_valid_incomplete hv1 hinc, hlenj]
    have h1 : makeValidUtf8 (s.take k) [] = (s.take j, (s.take k).drop j) := by
      rw [makeValid_eq]
      simp only [List.nil_append, Prod.mk.injEq]
      rw [hv]
      exact ⟨htt, rfl⟩
    have hjoin : (s.take k).drop j ++ s.drop k = s.drop j := by
      conv_rhs => rw [← List.take_append_drop k s]
      rw [List.drop_append_eq_append_drop]
      have h0 : j - (s.take k).length = 0 := by
        rw [List.length_take]; omega
      rw [h0, List.drop_zero]
    have h2 : makeValidUtf8 (s.drop k) ((s.take k).drop j) = (s.drop j, []) := by
      rw [makeValid_eq, hjoin, getValid_of_valid hv2, List.take_length, List.drop_length]
    unfold reassemble2
    have h3 : makeValidUtf8 [] [] = (([] : List Nat), ([] : List Nat)) := rfl
    simp only [h1, h2, h3]
    simp [List.take_append_drop]

/-- Claim C1 witness: the string "h☃" (one ASCII byte plus a three-byte
code unit), split in the middle of the snowman character, reassembles
exactly. -/
theorem claim1_amended_witness :
    Utf8Chars [0x68, 0xE2, 0x98, 0x83] ∧
    reassemble2 [0x68, 0xE2, 0x98, 0x83] 2 = [0x68, 0xE2, 0x98, 0x83] := by
  have h2 : isUnit [0xE2, 0x98, 0x83] = true := by decide
  have h1 : isUnit [0x68] = true := by decide
  have hv0 := Utf8Chars.cons [0xE2, 0x98, 0x83] [] h2 Utf8Chars.nil
  have hv1 := Utf8Chars.cons [0x68] _ h1 hv0
  have hv : Utf8Chars [0x68, 0xE2, 0x98, 0x83] := by simpa using hv1
  exact ⟨hv, claim1_amended.2 _ 2 hv⟩

/-! ## Substring search (`std::string::find` / `rfind`) -/

/-- Does `n` occur at the very start of `h`? -/
def prefMatch (n h : List Nat) : Bool := decide (h.take n.length = n)

/-- `std::string::find`: index of the first occurrence of `n` in `h`. -/
def firstOcc (n : List Nat) : List Nat → Option Nat
  | [] => if n = [] then some 0 else none
  | a :: t => if prefMatch n (a :: t) then some 0 else (firstOcc n t).map (· + 1)

/-- `std::string::rfind`: index of the last occurrence of `n` in `h`. -/
def lastOcc (n : List Nat) : List Nat → Option Nat
  | [] => if n = [] then some 0 else none
  | a :: t =>
    match lastOcc n t with
    | some j => some (j + 1)
    | none => if prefMatch n (a :: t) then some 0 else none

/-- `if ((pos = r.rfind(needle)) != npos) r = r.substr(0, pos)`. -/
def truncAt (needle r : List Nat) : List Nat :=
  match lastOcc needle r with
  | some q => r.take q
  | none => r

/-- `n` occurs somewhere inside `h` as a contiguous run. -/
def Contains (n h : List Nat) : Prop := ∃ p q, h = p ++ n ++ q

section SearchLemmas

lemma prefMatch_iff {n h : List Nat} : prefMatch n h = true ↔ ∃ q, h = n ++ q := by
  constructor
  · intro hm
    simp only [prefMatch, decide_eq_true_eq] at hm
    exact ⟨h.drop n.length, by conv_lhs => rw [← List.take_append_drop n.length h, hm]⟩
  · rintro ⟨q, rfl⟩
    simp [prefMatch, List.take_left]

lemma not_contains_nil {n : List Nat} (hn : n ≠ []) : ¬ Contains n [] := by
  rintro ⟨p, q, hpq⟩
  have hl := congrArg List.length hpq
  simp only [List.length_nil, List.length_append] at hl
  exact hn (List.length_eq_zero.mp (by omega))

lemma firstOcc_isSome_iff {n : List Nat} : ∀ {h : List Nat},
    (firstOcc n h).isSome = true ↔ Contains n h := by
  intro h
  induction h with
  | nil =>
    by_cases hn : n = []
    · subst hn
      simp [firstOcc, Contains]
    · simp only [firstOcc, if_neg hn]
      exact iff_of_false (by simp) (not_contains_nil hn)
  | cons a t ih =>
    by_cases hm : prefMatch n (a :: t) = true
    · simp only [firstOcc, if_pos hm, Option.isSome_some, true_iff]
      obtain ⟨q, hq⟩ := prefMatch_iff.mp hm
      exact ⟨[], q, by simpa using hq⟩
    · simp only [firstOcc, if_neg hm]
      constructor
      · intro hsome
        match hft : firstOcc n t with
        | some j =>
          have hct : Contains n t := ih.mp (by rw [hft]; rfl)
          obtain ⟨p, q, rfl⟩ := hct
          exact ⟨a :: p, q, by simp⟩
        | none =>
          rw [hft] at hsome
          simp at hsome
      · rintro ⟨p, q, hpq⟩
        match p with
        | [] =>
          exact absurd (prefMatch_iff.mpr ⟨q, by simpa using hpq⟩) hm
        | b :: p =>
          simp only [List.cons_append, List.cons.injEq] at hpq
          have hs := ih.mpr ⟨p, q, hpq.2⟩
          match hft : firstOcc n t with
          | some j => rfl
          | none =>
            rw [hft] at hs
            simp at hs

lemma not_contains_of_firstOcc_none {n h : List Nat} (hf : firstOcc n h = none) :
    ¬ Contains n h := by
  intro hc
  have := firstOcc_isSome_iff.mpr hc
  rw [hf] at this
  simp at this

lemma lastOcc_isSome_iff {n : List Nat} : ∀ {h : List Nat},
    (lastOcc n h).isSome = true ↔ Contains n h := by
  intro h
  induction h with
  | nil =>
    by_cases hn : n = []
    · subst hn; simp [lastOcc, Contains]
    · simp only [lastOcc, if_neg hn]
      exact iff_of_false (by simp) (not_contains_nil hn)
  | cons a t ih =>
    simp only [lastOcc]
    match hlt : lastOcc n t with
    | some j =>
      simp only [Option.isSome_some, true_iff]
      have hct : Contains n t := by
        rw [← ih, hlt]; rfl
      obtain ⟨p, q, rfl⟩ := hct
      exact ⟨a :: p, q, by simp⟩
    | none =>
      by_cases hm : prefMatch n (a :: t) = true
      · simp only [if_pos hm, Option.isSome_some, true_iff]
        obtain ⟨q, hq⟩ := prefMatch_iff.mp hm
        exact ⟨[], q, by simpa using hq⟩
      · simp only [if_neg hm]
        refine iff_of_false (by simp) ?_
        rintro ⟨p, q, hpq⟩
        match p with
        | [] => exact absurd (prefMatch_iff.mpr ⟨q, by simpa using hpq⟩) hm
        | b :: p =>
          simp only [List.cons_append, List.cons.injEq] at hpq
          have hs := ih.mpr ⟨p, q, hpq.2⟩
          rw [hlt] at hs
          simp at hs

lemma lastOcc_none_of_not_contains {n h : List Nat} (hc : ¬ Contains n h) :
    lastOcc n h = none := by
  match hl : lastOcc n h with
  | none => rfl
  | some j =>
    exact absurd (lastOcc_isSome_iff.mp (by rw [hl]; rfl)) hc

lemma truncAt_of_not_contains {n h : List Nat} (hc : ¬ Contains n h) :
    truncAt n h = h := by
  unfold truncAt
  rw [lastOcc_none_of_not_contains hc]

lemma prefMatch_of_prefMatch_take {n h : List Nat} {m : Nat}
    (hm : prefMatch n (h.take m) = true) : prefMatch n h = true := by
  obtain ⟨q, hq⟩ := prefMatch_iff.mp hm
  refine prefMatch_iff.mpr ⟨q ++ h.drop m, ?_⟩
  conv_lhs => rw [← List.take_append_drop m h, hq]
  simp

lemma firstOcc_take_none {n : List Nat} (hn : n ≠ []) : ∀ {h : List Nat} {p : Nat},
    firstOcc n h = some p → firstOcc n (h.take p) = none := by
  intro h
  induction h with
  | nil => intro p hp; simp [firstOcc, if_neg hn] at hp
  | cons a t ih =>
    intro p hp
    by_cases hm : prefMatch n (a :: t) = true
    · simp only [firstOcc, if_pos hm, Option.some.injEq] at hp
      subst hp
      simp [firstOcc, if_neg hn]
    · simp only [firstOcc, if_neg hm] at hp
      match hft : firstOcc n t with
      | none =>
        rw [hft] at hp
        simp at hp
      | some q =>
        rw [hft] at hp
        simp only [Option.map_some', Option.some.injEq] at hp
        subst hp
        simp only [List.take_succ_cons, firstOcc]
        have hm2 : ¬ prefMatch n (a :: t.take q) = true := by
          intro hmm
          have he : a :: t.take q = (a :: t).take (q + 1) := by simp
          rw [he] at hmm
          exact hm (prefMatch_of_prefMatch_take hmm)
        rw [if_neg hm2, ih hft]
        rfl

lemma contains_of_contains_take {n h : List Nat} {m : Nat}
    (hc : Contains n (h.take m)) : Contains n h := by
  obtain ⟨p, q, hpq⟩ := hc
  refine ⟨p, q ++ h.drop m, ?_⟩
  conv_lhs => rw [← List.take_append_drop m h, hpq]
  simp

lemma contains_of_append_left {n l r : List Nat} (hc : Contains n l) :
    Contains n (l ++ r) := by
  obtain ⟨p, q, rfl⟩ := hc
  exact ⟨p, q ++ r, by simp⟩

lemma contains_of_append_right {n l r : List Nat} (hc : Contains n r) :
    Contains n (l ++ r) := by
  obtain ⟨p, q, rfl⟩ := hc
  exact ⟨l ++ p, q, by simp⟩

lemma contains_mono {n₁ n₂ h : List Nat} (hsub : Contains n₁ n₂) (hc : Contains n₂ h) :
    Contains n₁ h := by
  obtain ⟨p, q, rfl⟩ := hc
  obtain ⟨p', q', rfl⟩ := hsub
  exact ⟨p ++ p', q' ++ q, by simp⟩

end SearchLemmas

/-! ## The generation loop (`nativeGenerate`, llama_jni.cpp lines 259-461) -/

/-- The ChatML stop markers and the fragments the code searches for, as
byte lists: `"<|im_end|>"`, `"<|im_start|>"`, `"<|im_end"`,
`"<|im_start"`, `"<|im_"`. -/
def imEnd : List Nat := [60, 124, 105, 109, 95, 101, 110, 100, 124, 62]

def imStart : List Nat := [60, 124, 105, 109, 95, 115, 116, 97, 114, 116, 124, 62]

def imEnd8 : List Nat := [60, 124, 105, 109, 95, 101, 110, 100]

def imStart10 : List Nat := [60, 124, 105, 109, 95, 115, 116, 97, 114, 116]

def im5 : List Nat := [60, 124, 105, 109, 95]

/-- One sampling iteration's observation of the external inference
engine: the sampled token is end-of-generation, `llama_token_to_piece`
fails (negative count), or it yields piece bytes together with whether
the subsequent `llama_decode` of the token succeeds. -/
inductive TokenEv
  | eog
  | pieceFail
  | piece (p : List Nat) (decodeOk : Bool)

/-- The mutable loop state of `nativeGenerate`: `result`,
`recent_output`, `utf8_buffer`, `pending_output`, plus the list of all
strings passed to the sink callback so far and the number of loop-body
iterations executed. -/
structure GenSt where
  result : List Nat
  recent : List Nat
  utf8buf : List Nat
  pending : List Nat
  emits : List (List Nat)
  iters : Nat

/-- `recent_output` length bound: trim to the last 50 bytes. -/
def trimRecent (l : List Nat) : List Nat :=
  if 50 < l.length then l.drop (l.length - 50) else l

/-- The body of one sampling iteration for a token piece `p`
(llama_jni.cpp lines 362-430): update the rolling tail, check both stop
markers (retroactively truncating `result` and breaking, without
appending the current piece, on a hit), otherwise append to `result` and
`pending_output`, run `pending_output` through `makeValidUtf8` (the
incomplete buffer is always replaced; `pending_output` is cleared and
the sink invoked only when the emitted chunk is non-empty).  Returns the
new state and whether a stop marker fired. -/
def pieceStep (st : GenSt) (p : List Nat) : GenSt × Bool :=
  let recent := trimRecent (st.recent ++ p)
  let hitE := (firstOcc imEnd recent).isSome
  let hitS := (firstOcc imStart recent).isSome
  let r1 := if hitE then truncAt imEnd8 (truncAt imEnd st.result) else st.result
  let r2 := if hitS then truncAt imStart10 (truncAt imStart r1) else r1
  if hitE || hitS then
    (⟨r2, recent, st.utf8buf, st.pending, st.emits, st.iters⟩, true)
  else
    let pending := st.pending ++ p
    let m := makeValidUtf8 pending st.utf8buf
    if m.1 = [] then
      (⟨st.result ++ p, recent, m.2, pending, st.emits, st.iters⟩, false)
    else
      (⟨st.result ++ p, recent, m.2, [], st.emits ++ [m.1], st.iters⟩, false)

/-- The sampling loop (`for (int i = 0; i < max_gen && !g_should_stop; i++)`).
`sched i` is the value of `g_should_stop` read at iteration `i`'s loop
condition (set asynchronously by `nativeStopGeneration`); the event list
is the stream of sampled-token observations. -/
def genLoop (sched : Nat → Bool) (maxGen : Nat) : List TokenEv → Nat → GenSt → GenSt
  | [], _, st => st
  | ev :: rest, i, st =>
    if i < maxGen ∧ sched i = false then
      match ev with
      | .eog => {st with iters := st.iters + 1}
      | .pieceFail => {st with iters := st.iters + 1}
      | .piece p dec =>
        let r := pieceStep {st with iters := st.iters + 1} p
        if r.2 then r.1
        else if dec then genLoop sched maxGen rest (i + 1) r.1
        else r.1
    else st

/-- The flush after the loop (lines 433-444): if `pending_output` is
non-empty, run it through `makeValidUtf8` once more and send any
non-empty chunk to the sink. -/
def flushStep (st : GenSt) : GenSt :=
  if st.pending = [] then st
  else
    let m := makeValidUtf8 st.pending st.utf8buf
    if m.1 = [] then {st with utf8buf := m.2}
    else {st with utf8buf := m.2, emits := st.emits ++ [m.1]}

/-- The final cleanup `while ((pos = result.find("<|im_")) != npos)
result = result.substr(0, pos)` (lines 447-450).  Each iteration
strictly shortens `result`, so fuel `result.length + 1` is never
exhausted. -/
def cleanupLoop : Nat → List Nat → List Nat
  | 0, r => r
  | f + 1, r =>
    match firstOcc im5 r with
    | none => r
    | some p => cleanupLoop f (r.take p)

def cleanupResult (r : List Nat) : List Nat := cleanupLoop (r.length + 1) r

/-- Lines 446-454: ChatML cleanup followed by a final `makeValidUtf8`
with a fresh empty buffer; the returned string. -/
def finalizeResult (r : List Nat) : List Nat :=
  (makeValidUtf8 (cleanupResult r) []).1

/-- The error taxonomy of `nativeGenerate`'s sentinel return strings:
`"[Error: No model loaded]"`, `"[Error: Tokenization failed]"`,
`"[Error: Prompt evaluation failed]"`. -/
inductive GenErr
  | noModel
  | tokenizeFail
  | promptEvalFail

/-- What a call to `nativeGenerate` produces: the returned string (or
error sentinel), the sequence of strings passed to the sink callback,
and the number of sampling-loop iterations executed. -/
structure GenOutcome where
  output : Except GenErr (List Nat)
  emits : List (List Nat)
  iters : Nat

/-- The session-level global state: `g_model`/`g_ctx` presence,
`g_is_generating`, `g_should_stop`. -/
structure Session where
  model : Bool
  ctx : Bool
  generating : Bool
  shouldStop : Bool

/-- `nativeIsModelLoaded` (lines 248-254). -/
def nativeIsModelLoaded (s : Session) : Bool := s.model && s.ctx

/-- `max_gen = maxTokens > 0 ? maxTokens : 512` (line 329); `maxTokens`
is a JNI `jint` and may be negative. -/
def maxGenOf (mt : Int) : Nat := if 0 < mt then mt.toNat else 512

/-- `nativeGenerate` (lines 259-461).  `tokOk` and `promptOk` are the
outcomes of the external `llama_tokenize` and prompt `llama_decode`
calls.  Returns the outcome and the session state after the call. -/
def nativeGenerate (s : Session) (tokOk promptOk : Bool) (mt : Int)
    (sched : Nat → Bool) (evs : List TokenEv) : GenOutcome × Session :=
  if s.model = true ∧ s.ctx = true then
    let s1 : Session := {s with generating := true, shouldStop := false}
    if tokOk = true then
      if promptOk = true then
        let st := genLoop sched (maxGenOf mt) evs 0 ⟨[], [], [], [], [], 0⟩
        let st2 := flushStep st
        ({output := .ok (finalizeResult st2.result), emits := st2.emits, iters := st2.iters},
         {s1 with generating := false})
      else
        ({output := .error .promptEvalFail, emits := [], iters := 0},
         {s1 with generating := false})
    else
      ({output := .error .tokenizeFail, emits := [], iters := 0},
       {s1 with generating := false})
  else
    ({output := .error .noModel, emits := [], iters := 0}, s)

/-- The two failure modes of `nativeLoadModel` (lines 157-214):
`llama_model_load_from_file` returning null (spec `LoadError`) and
`llama_init_from_model` returning null (spec `ContextError`); the JNI
function signals both by returning `JNI_FALSE`, after releasing in the
second case the just-loaded model. -/
inductive LoadErr
  | loadError
  | contextError

/-- `nativeLoadModel`: any previously held context and model are freed
first; `parseOk` and `ctxOk` are the outcomes of the two external
llama.cpp calls. -/
def nativeLoadModel (s : Session) (parseOk ctxOk : Bool) : Except LoadErr Unit × Session :=
  let s0 : Session := {s with model := false, ctx := false}
  if parseOk = true then
    if ctxOk = true then (.ok (), {s0 with model := true, ctx := true})
    else (.error .contextError, s0)
  else (.error .loadError, s0)

section CleanupLemmas

lemma im5_ne_nil : im5 ≠ [] := by decide

lemma cleanupLoop_of_none {r : List Nat} (f : Nat) (h : firstOcc im5 r = none) :
    cleanupLoop f r = r := by
  cases f with
  | zero => rfl
  | succ f => simp [cleanupLoop, h]

lemma cleanupResult_not_contains (r : List Nat) : ¬ Contains im5 (cleanupResult r) := by
  unfold cleanupResult
  match h : firstOcc im5 r with
  | none =>
    simp only [cleanupLoop, h]
    exact not_contains_of_firstOcc_none h
  | some p =>
    simp only [cleanupLoop, h]
    have hn : firstOcc im5 (r.take p) = none := firstOcc_take_none im5_ne_nil h
    rw [cleanupLoop_of_none _ hn]
    exact not_contains_of_firstOcc_none hn

lemma finalize_not_contains (r : List Nat) : ¬ Contains im5 (finalizeResult r) := by
  unfold finalizeResult
  rw [makeValid_eq]
  simp only [List.nil_append]
  intro hc
  exact cleanupResult_not_contains r (contains_of_contains_take hc)

lemma contains_im5_imEnd_take {k : Nat} (hk : 5 ≤ k) : Contains im5 (imEnd.take k) := by
  have he : k = 5 + (k - 5) := by omega
  rw [he, List.take_add]
  have h5 : imEnd.take 5 = im5 := by decide
  rw [h5]
  exact ⟨[], (imEnd.drop 5).take (k - 5), by simp⟩

lemma contains_im5_imStart_take {k : Nat} (hk : 5 ≤ k) : Contains im5 (imStart.take k) := by
  have he : k = 5 + (k - 5) := by omega
  rw [he, List.take_add]
  have h5 : imStart.take 5 = im5 := by decide
  rw [h5]
  exact ⟨[], (imStart.drop 5).take (k - 5), by simp⟩

end CleanupLemmas

/-- Claim C2 (divergence witness): a single sampled token whose piece is
the bytes 0x80 0x41 (a stray continuation byte followed by `A`) makes
the loop invoke the sink exactly once with exactly those two bytes,
which are not a concatenation of well-formed UTF-8 code units — the
stray 0x80 is skipped by the scanner but still counted into `valid_len`
and delivered.  This contradicts the guarantee that sink text is always
parseable as valid UTF-8. -/
theorem claim2_bug :
    (nativeGenerate ⟨true, true, false, false⟩ true true 5 (fun _ => false)
        [TokenEv.piece [0x80, 0x41] true]).1.emits = [[0x80, 0x41]] ∧
    ¬ Utf8Chars [0x80, 0x41] := by
  refine ⟨rfl, ?_⟩
  intro h
  exact utf8Chars_head h 0x80 [0x41] rfl (by decide)

/-- Claim C3 (counterexample): a run whose single token piece is
`"<|im"` (the first four bytes of `"<|im_end|>"`) and which then stops
because `maxTokens = 1` is exhausted returns exactly `"<|im"`: the
returned text ends with a proper non-empty prefix of the configured
marker `"<|im_end|>"`, because the final cleanup only removes fragments
that reach the fifth marker byte `'_'`. -/
theorem claim3_counterexample :
    (nativeGenerate ⟨true, true, false, false⟩ true true 1 (fun _ => false)
        [TokenEv.piece [60, 124, 105, 109] true]).1.output = .ok [60, 124, 105, 109] ∧
    [60, 124, 105, 109] = ([] : List Nat) ++ imEnd.take 4 ∧
    imEnd.take 4 ≠ [] ∧ imEnd.take 4 ≠ imEnd := by
  exact ⟨rfl, by decide, by decide, by decide⟩

/-- Claim C3 (amended): whenever `nativeGenerate` returns text (rather
than an error sentinel), that text never contains `"<|im_end|>"` or
`"<|im_start|>"` as a substring, and never ends with a partial marker
fragment of length at least five (one reaching `"<|im_"`); fragments of
length one to four (`"<"`, `"<|"`, `"<|i"`, `"<|im"`) may remain at the
very end. -/
theorem claim3_amended :
    ∀ (s : Session) (tokOk promptOk : Bool) (mt : Int)
      (sched : Nat → Bool) (evs : List TokenEv) (t : List Nat),
    (nativeGenerate s tokOk promptOk mt sched evs).1.output = .ok t →
    ¬ Contains imEnd t ∧ ¬ Contains imStart t ∧
    (∀ k, 5 ≤ k →
      (∀ pre : List Nat, t ≠ pre ++ imEnd.take k) ∧
      (∀ pre : List Nat, t ≠ pre ++ imStart.take k)) := by
  intro s tokOk promptOk mt sched evs t ht
  have h5 : ¬ Contains im5 t := by
    unfold nativeGenerate at ht
    split_ifs at ht with h1 h2 h3
    · simp only [Except.ok.injEq] at ht
      rw [← ht]
      exact finalize_not_contains _
  refine ⟨?_, ?_, ?_⟩
  · intro hc
    exact h5 (contains_mono ⟨[], imEnd.drop 5, by decide⟩ hc)
  · intro hc
    exact h5 (contains_mono ⟨[], imStart.drop 5, by decide⟩ hc)
  · intro k hk
    constructor
    · intro pre hpre
      rw [hpre] at h5
      exact h5 (contains_of_append_right (contains_im5_imEnd_take hk))
    · intro pre hpre
      rw [hpre] at h5
      exact h5 (contains_of_append_right (contains_im5_imStart_take hk))

/-- Claim C3 witness: a run returning `"hi"`, on which the amended
guarantee evaluates concretely. -/
theorem claim3_amended_witness :
    (nativeGenerate ⟨true, true, false, false⟩ true true 5 (fun _ => false)
        [TokenEv.piece [104, 105] true]).1.output = .ok [104, 105] ∧
    ¬ Contains imEnd [104, 105] := by
  have h : (nativeGenerate ⟨true, true, false, false⟩ true true 5 (fun _ => false)
      [TokenEv.piece [104, 105] true]).1.output = .ok [104, 105] := rfl
  exact ⟨h, (claim3_amended _ _ _ _ _ _ _ h).1⟩

/-- Claim C5 (divergence witness): one token carrying the first three
bytes of the four-byte character U+1F600 (0xF0 0x9F 0x98) followed by a
token carrying its fourth byte (0x80).  The sink correctly receives
nothing on the first token, but on the second it receives
0xF0 0x9F 0x98 0xF0 0x9F 0x98 0x80 — the first three bytes delivered
twice — because the undelivered bytes are retained both in
`pending_output` (not cleared when the released chunk is empty) and in
`utf8_buffer` (always refilled by `makeValidUtf8`), so the next call
prepends them to themselves.  The claim says the sink receives exactly
the complete character 0xF0 0x9F 0x98 0x80, each byte once. -/
theorem claim5_bug :
    (nativeGenerate ⟨true, true, false, false⟩ true true 5 (fun _ => false)
        [TokenEv.piece [0xF0, 0x9F, 0x98] true, TokenEv.piece [0x80] true]).1.emits =
      [[0xF0, 0x9F, 0x98, 0xF0, 0x9F, 0x98, 0x80]] ∧
    [[0xF0, 0x9F, 0x98, 0xF0, 0x9F, 0x98, 0x80]] ≠ [[0xF0, 0x9F, 0x98, 0x80]] := by
  exact ⟨rfl, by decide⟩

section IterLemmas

lemma pieceStep_iters (st : GenSt) (p : List Nat) :
    (pieceStep st p).1.iters = st.iters := by
  unfold pieceStep
  simp only []
  split_ifs <;> rfl

lemma flushStep_iters (st : GenSt) : (flushStep st).iters = st.iters := by
  unfold flushStep
  simp only []
  split_ifs <;> rfl

lemma flushStep_result (st : GenSt) : (flushStep st).result = st.result := by
  unfold flushStep
  simp only []
  split_ifs <;> rfl

lemma genLoop_iters_le (sched : Nat → Bool) (m : Nat) :
    ∀ (evs : List TokenEv) (i : Nat) (st : GenSt),
      (genLoop sched m evs i st).iters ≤ st.iters + (m - i) := by
  intro evs
  induction evs with
  | nil =>
    intro i st
    simp [genLoop]
  | cons ev rest ih =>
    intro i st
    simp only [genLoop]
    by_cases hc : i < m ∧ sched i = false
    · rw [if_pos hc]
      have him : i < m := hc.1
      match ev with
      | .eog => show st.iters + 1 ≤ st.iters + (m - i); omega
      | .pieceFail => show st.iters + 1 ≤ st.iters + (m - i); omega
      | .piece p dec =>
        simp only
        have hpi : (pieceStep {st with iters := st.iters + 1} p).1.iters =
            st.iters + 1 := by
          rw [pieceStep_iters]
        cases hr : (pieceStep {st with iters := st.iters + 1} p).2
        · simp only [hr, Bool.false_eq_true, if_false]
          cases dec
          · simp only [Bool.false_eq_true, if_false]
            omega
          · simp only [if_true]
            have hrec := ih (i + 1) (pieceStep {st with iters := st.iters + 1} p).1
            omega
        · simp only [hr, if_true]
          omega
    · rw [if_neg hc]
      omega

lemma genLoop_iters_stop (sched : Nat → Bool) (m k : Nat)
    (hs : ∀ j, k < j → sched j = true) :
    ∀ (evs : List TokenEv) (i : Nat) (st : GenSt),
      (genLoop sched m evs i st).iters ≤ st.iters + (k + 1 - i) := by
  intro evs
  induction evs with
  | nil =>
    intro i st
    simp [genLoop]
  | cons ev rest ih =>
    intro i st
    simp only [genLoop]
    by_cases hc : i < m ∧ sched i = false
    · rw [if_pos hc]
      have hik : i ≤ k := by
        by_contra hgt
        push_neg at hgt
        have := hs i hgt
        rw [this] at hc
        exact absurd hc.2 (by simp)
      match ev with
      | .eog => show st.iters + 1 ≤ st.iters + (k + 1 - i); omega
      | .pieceFail => show st.iters + 1 ≤ st.iters + (k + 1 - i); omega
      | .piece p dec =>
        simp only
        have hpi : (pieceStep {st with iters := st.iters + 1} p).1.iters =
            st.iters + 1 := by
          rw [pieceStep_iters]
        cases hr : (pieceStep {st with iters := st.iters + 1} p).2
        · simp only [hr, Bool.false_eq_true, if_false]
          cases dec
          · simp only [Bool.false_eq_true, if_false]
            omega
          · simp only [if_true]
            have hrec := ih (i + 1) (pieceStep {st with iters := st.iters + 1} p).1
            omega
        · simp only [hr, if_true]
          omega
    · rw [if_neg hc]
      omega

lemma genLoop_stop_take (sched : Nat → Bool) (m k : Nat)
    (hs : ∀ j, k < j → sched j = true) :
    ∀ (evs : List TokenEv) (i : Nat) (st : GenSt),
      genLoop sched m evs i st = genLoop sched m (evs.take (k + 1 - i)) i st := by
  intro evs
  induction evs with
  | nil =>
    intro i st
    simp
  | cons ev rest ih =>
    intro i st
    by_cases hik : k < i
    · have hcond : ¬ (i < m ∧ sched i = false) := by
        rintro ⟨_, hf⟩
        rw [hs i hik] at hf
        exact absurd hf (by simp)
      have ht : k + 1 - i = 0 := by omega
      rw [ht, List.take_zero]
      simp only [genLoop, if_neg hcond]
    · push_neg at hik
      have ht : k + 1 - i = (k - i) + 1 := by omega
      rw [ht, List.take_succ_cons]
      simp only [genLoop]
      by_cases hc : i < m ∧ sched i = false
      · rw [if_pos hc, if_pos hc]
        match ev with
        | .eog => rfl
        | .pieceFail => rfl
        | .piece p dec =>
          simp only
          cases hr : (pieceStep {st with iters := st.iters + 1} p).2
          · simp only [hr, Bool.false_eq_true, if_false]
            cases dec
            · rfl
            · simp only [if_true]
              have hidx : k + 1 - (i + 1) = k - i := by omega
              have hrec := ih (i + 1) (pieceStep {st with iters := st.iters + 1} p).1
              rw [hidx] at hrec
              exact hrec
          · simp only [hr, if_true]
      · rw [if_neg hc, if_neg hc]

end IterLemmas

/-- Claim C6: whenever the very first sampled token is an
end-of-sequence token, `nativeGenerate` (on a loaded model with
successful tokenization and prompt evaluation, for any `maxTokens`
including 0 and any stop-flag schedule) returns the empty string as a
successful result — not an error — and the sink is invoked zero
times. -/
theorem claim6 :
    ∀ (g q : Bool) (mt : Int) (sched : Nat → Bool) (evs : List TokenEv),
    (nativeGenerate ⟨true, true, g, q⟩ true true mt sched (TokenEv.eog :: evs)).1.output =
      .ok [] ∧
    (nativeGenerate ⟨true, true, g, q⟩ true true mt sched (TokenEv.eog :: evs)).1.emits =
      [] := by
  intro g q mt sched evs
  have hstep : genLoop sched (maxGenOf mt) (TokenEv.eog :: evs) 0 ⟨[], [], [], [], [], 0⟩ =
      ⟨[], [], [], [], [], if 0 < maxGenOf mt ∧ sched 0 = false then 1 else 0⟩ := by
    simp only [genLoop]
    by_cases h : 0 < maxGenOf mt ∧ sched 0 = false
    · rw [if_pos h, if_pos h]
    · rw [if_neg h, if_neg h]
  unfold nativeGenerate
  rw [if_pos ⟨rfl, rfl⟩, if_pos rfl, if_pos rfl]
  simp only [hstep]
  constructor <;> rfl

/-- Claim C7: a `nativeGenerate` call with no model or no context loaded
fails immediately with the no-model error, performs zero sampling
iterations, invokes the sink zero times, and leaves the session state
unchanged; conversely, with a model loaded the call never returns the
no-model error. -/
theorem claim7 :
    ∀ (s : Session) (tokOk promptOk : Bool) (mt : Int)
      (sched : Nat → Bool) (evs : List TokenEv),
    (¬ (s.model = true ∧ s.ctx = true) →
      nativeGenerate s tokOk promptOk mt sched evs =
        ({output := .error .noModel, emits := [], iters := 0}, s)) ∧
    ((s.model = true ∧ s.ctx = true) →
      (nativeGenerate s tokOk promptOk mt sched evs).1.output ≠
        .error .noModel) := by
  intro s tokOk promptOk mt sched evs
  constructor
  · intro h
    simp only [nativeGenerate, if_neg h]
  · intro h
    simp only [nativeGenerate, if_pos h]
    by_cases h2 : tokOk = true
    · simp only [if_pos h2]
      by_cases h3 : promptOk = true
      · simp [if_pos h3]
      · simp [if_neg h3]
    · simp [if_neg h2]

/-- Claim C7 witness: with an empty session the call returns the
no-model error and changes nothing; with a loaded session the result is
not the no-model error. -/
theorem claim7_witness :
    (nativeGenerate ⟨false, false, false, false⟩ true true 5 (fun _ => false) [] =
      ({output := .error .noModel, emits := [], iters := 0},
       ⟨false, false, false, false⟩)) ∧
    (nativeGenerate ⟨true, true, false, false⟩ true true 5 (fun _ => false) []).1.output ≠
      .error .noModel := by
  constructor
  · exact (claim7 ⟨false, false, false, false⟩ true true 5 (fun _ => false) []).1
      (by simp)
  · exact (claim7 ⟨true, true, false, false⟩ true true 5 (fun _ => false) []).2
      ⟨rfl, rfl⟩

/-- Claim C8: when the model file parses successfully but context
creation fails, `nativeLoadModel` fails with the context error, the
just-loaded model is released, and the session returns to empty: both
handles are null and `nativeIsModelLoaded` afterwards returns false. -/
theorem claim8 :
    ∀ s : Session,
    nativeLoadModel s true false =
      (.error .contextError, {s with model := false, ctx := false}) ∧
    (nativeLoadModel s true false).2.model = false ∧
    (nativeLoadModel s true false).2.ctx = false ∧
    nativeIsModelLoaded (nativeLoadModel s true false).2 = false := by
  intro s
  exact ⟨rfl, rfl, rfl, rfl⟩

/-- Claim C9: if the stop flag is set from iteration `k` on (it is read
once per sampling iteration, at the loop condition), the loop exits
within one further iteration: the whole call behaves exactly as if only
the first `k + 1` sampled tokens existed, executes at most `k + 1`
iterations, and still returns a successful (non-error) result — the
partial text accumulated so far. -/
theorem claim9 :
    ∀ (g q : Bool) (mt : Int) (sched : Nat → Bool) (evs : List TokenEv) (k : Nat),
    (∀ j, k < j → sched j = true) →
    nativeGenerate ⟨true, true, g, q⟩ true true mt sched evs =
      nativeGenerate ⟨true, true, g, q⟩ true true mt sched (evs.take (k + 1)) ∧
    (nativeGenerate ⟨true, true, g, q⟩ true true mt sched evs).1.iters ≤ k + 1 ∧
    (∃ t, (nativeGenerate ⟨true, true, g, q⟩ true true mt sched evs).1.output = .ok t) := by
  intro g q mt sched evs k hs
  have htake := genLoop_stop_take sched (maxGenOf mt) k hs evs 0 ⟨[], [], [], [], [], 0⟩
  have hiter := genLoop_iters_stop sched (maxGenOf mt) k hs evs 0 ⟨[], [], [], [], [], 0⟩
  refine ⟨?_, ?_, ?_⟩
  · have htake' : genLoop sched (maxGenOf mt) evs 0 ⟨[], [], [], [], [], 0⟩ =
        genLoop sched (maxGenOf mt) (evs.take (k + 1)) 0 ⟨[], [], [], [], [], 0⟩ := htake
    unfold nativeGenerate
    rw [htake']
  · unfold nativeGenerate
    rw [if_pos ⟨rfl, rfl⟩, if_pos rfl, if_pos rfl]
    simp only [flushStep_iters]
    simpa using hiter
  · unfold nativeGenerate
    rw [if_pos ⟨rfl, rfl⟩, if_pos rfl, if_pos rfl]
    exact ⟨_, rfl⟩

/-- Claim C9 witness: with the stop flag permanently set (k = 0) the run
on two end-of-generation events performs at most one iteration. -/
theorem claim9_witness :
    (nativeGenerate ⟨true, true, false, false⟩ true true 5 (fun _ => true)
        [TokenEv.eog, TokenEv.eog]).1.iters ≤ 1 := by
  exact (claim9 false false 5 (fun _ => true) [TokenEv.eog, TokenEv.eog] 0
    (fun j _ => rfl)).2.1

/-- Claim C10: for `maxTokens ≤ 0` (including negative values) the
sampling loop executes at most the default 512 iterations; for
`maxTokens > 0` it executes at most `maxTokens` iterations. -/
theorem claim10 :
    ∀ (s : Session) (tokOk promptOk : Bool) (mt : Int)
      (sched : Nat → Bool) (evs : List TokenEv),
    (mt ≤ 0 → (nativeGenerate s tokOk promptOk mt sched evs).1.iters ≤ 512) ∧
    (0 < mt → (nativeGenerate s tokOk promptOk mt sched evs).1.iters ≤ mt.toNat) := by
  intro s tokOk promptOk mt sched evs
  have hb : (nativeGenerate s tokOk promptOk mt sched evs).1.iters ≤ maxGenOf mt := by
    unfold nativeGenerate
    split_ifs with h1 h2 h3
    · simp only [flushStep_iters]
      have := genLoop_iters_le sched (maxGenOf mt) evs 0 ⟨[], [], [], [], [], 0⟩
      simpa using this
    · simp
    · simp
    · simp
  constructor
  · intro hmt
    have he : maxGenOf mt = 512 := by
      unfold maxGenOf
      rw [if_neg (by omega)]
    omega
  · intro hmt
    have he : maxGenOf mt = mt.toNat := by
      unfold maxGenOf
      rw [if_pos hmt]
    omega

/-- Claim C10 witness: a run with `maxTokens = -3` stays within the 512
default bound. -/
theorem claim10_witness :
    ((-3 : Int) ≤ 0) ∧
    (nativeGenerate ⟨true, true, false, false⟩ true true (-3) (fun _ => false)
        [TokenEv.eog]).1.iters ≤ 512 := by
  exact ⟨by decide,
    (claim10 ⟨true, true, false, false⟩ true true (-3) (fun _ => false)
      [TokenEv.eog]).1 (by decide)⟩

/-- The example text `"Hi there!"` of the spec's C4 scenario. -/
def hiThere : List Nat := [72, 105, 32, 116, 104, 101, 114, 101, 33]

section Claim4Lemmas

/-- The final iteration of the C4 scenario: state holds exactly
`"Hi there!"`, the sampled piece is the complete marker.  The marker is
detected, both retroactive truncations find nothing in `"Hi there!"`,
the loop stops without appending the piece. -/
lemma pieceStep_hiThere_end (E : List (List Nat)) (it : Nat) :
    pieceStep ⟨hiThere, hiThere, [], [], E, it⟩ imEnd =
      (⟨hiThere, hiThere ++ imEnd, [], [], E, it⟩, true) := rfl

/-- A clean ASCII piece in a marker-free context passes straight
through: appended to result and rolling tail, emitted whole to the
sink, both byte buffers left empty. -/
lemma pieceStep_clean (acc p : List Nat) (E : List (List Nat)) (it : Nat)
    (hlen : (acc ++ p).length ≤ 50)
    (hE : ¬ Contains imEnd (acc ++ p))
    (hS : ¬ Contains imStart (acc ++ p))
    (hascii : ∀ b ∈ p, b < 128)
    (hne : p ≠ []) :
    pieceStep ⟨acc, acc, [], [], E, it⟩ p =
      (⟨acc ++ p, acc ++ p, [], [], E ++ [p], it⟩, false) := by
  unfold pieceStep
  simp only []
  have hrecent : trimRecent (acc ++ p) = acc ++ p := by
    unfold trimRecent
    rw [if_neg (by omega)]
  rw [hrecent]
  have hE' : (firstOcc imEnd (acc ++ p)).isSome = false := by
    cases hx : (firstOcc imEnd (acc ++ p)).isSome
    · rfl
    · exact absurd (firstOcc_isSome_iff.mp hx) hE
  have hS' : (firstOcc imStart (acc ++ p)).isSome = false := by
    cases hx : (firstOcc imStart (acc ++ p)).isSome
    · rfl
    · exact absurd (firstOcc_isSome_iff.mp hx) hS
  rw [hE', hS']
  simp only [Bool.false_eq_true, if_false, Bool.or_self]
  have hm : makeValidUtf8 ([] ++ p) [] = (p, []) := by
    rw [List.nil_append, makeValid_eq, List.nil_append,
      getValid_of_valid (ascii_utf8Chars hascii), List.take_length, List.drop_length]
  rw [hm]
  simp only []
  rw [if_neg hne]

lemma not_contains_imEnd_hiThere : ¬ Contains imEnd hiThere :=
  not_contains_of_firstOcc_none (by decide)

lemma not_contains_imStart_hiThere : ¬ Contains imStart hiThere :=
  not_contains_of_firstOcc_none (by decide)

/-- The C4 loop invariant: with result, rolling tail and emissions all
holding exactly the prefix of `"Hi there!"` consumed so far and both
byte buffers empty, running the remaining pieces followed by the marker
token lands in the stopped state holding exactly `"Hi there!"`. -/
lemma claim4_loop (sched : Nat → Bool) (m : Nat) :
    ∀ (ps : List (List Nat)) (acc : List Nat) (i : Nat) (E : List (List Nat)) (it : Nat),
    acc ++ ps.flatten = hiThere →
    (∀ p ∈ ps, p ≠ []) →
    i + ps.length < m →
    (∀ j, j ≤ i + ps.length → sched j = false) →
    genLoop sched m (ps.map (fun p => TokenEv.piece p true) ++ [TokenEv.piece imEnd true]) i
        ⟨acc, acc, [], [], E, it⟩ =
      ⟨hiThere, hiThere ++ imEnd, [], [], E ++ ps, it + (ps.length + 1)⟩ := by
  intro ps
  induction ps with
  | nil =>
    intro acc i E it hacc hne hm hsched
    simp only [List.flatten_nil, List.append_nil] at hacc
    subst hacc
    simp only [List.map_nil, List.nil_append, genLoop]
    rw [if_pos ⟨by simpa using hm, hsched i (by simp)⟩]
    rw [pieceStep_hiThere_end]
    simp

  | cons p ps ih =>
    intro acc i E it hacc hne hm hsched
    have hpre : (acc ++ p) ++ ps.flatten = hiThere := by
      rw [List.append_assoc]
      simpa using hacc
    have h9 := congrArg List.length hpre
    rw [List.length_append] at h9
    have h10 : hiThere.length = 9 := rfl
    have hlen : (acc ++ p).length ≤ 50 := by omega
    have hcE : ¬ Contains imEnd (acc ++ p) := by
      intro hc
      exact not_contains_imEnd_hiThere (by rw [← hpre]; exact contains_of_append_left hc)
    have hcS : ¬ Contains imStart (acc ++ p) := by
      intro hc
      exact not_contains_imStart_hiThere (by rw [← hpre]; exact contains_of_append_left hc)
    have hascii : ∀ b ∈ p, b < 128 := by
      intro b hb
      have hbh : b ∈ hiThere := by
        rw [← hpre]
        exact List.mem_append.mpr (Or.inl (List.mem_append.mpr (Or.inr hb)))
      have hall : ∀ b ∈ hiThere, b < 128 := by decide
      exact hall b hbh
    have hpne : p ≠ [] := hne p (List.mem_cons_self p ps)
    simp only [List.map_cons, List.cons_append, genLoop]
    rw [if_pos ⟨by simp only [List.length_cons] at hm; omega, hsched i (by simp)⟩]
    rw [pieceStep_clean acc p E (it + 1) hlen hcE hcS hascii hpne]
    simp only [Bool.false_eq_true, if_false, if_true]
    have hrec := ih (acc ++ p) (i + 1) (E ++ [p]) (it + 1) hpre
      (fun q hq => hne q (List.mem_cons_of_mem p hq))
      (by simp only [List.length_cons] at hm; omega)
      (fun j hj => hsched j (by simp only [List.length_cons]; omega))
    simp only [List.append_eq]
    rw [hrec]
    have he1 : (E ++ [p]) ++ ps = E ++ p :: ps := by simp
    have he2 : it + 1 + (ps.length + 1) = it + (ps.length + 1 + 1) := by omega
    rw [he1, he2]
    simp

end Claim4Lemmas

/-- Claim C4 (counterexample): if the whole text
`"Hi there!<|im_end|>"` arrives as a single token piece, the marker is
detected before the piece is ever appended to `result`, the retroactive
truncation finds nothing to truncate, and the code returns the empty
string — not `"Hi there!"`.  So the claimed behavior does not hold for
every split of the text into token pieces. -/
theorem claim4_counterexample :
    (nativeGenerate ⟨true, true, false, false⟩ true true 5 (fun _ => false)
        [TokenEv.piece (hiThere ++ imEnd) true]).1.output = .ok [] ∧
    ([] : List Nat) ≠ hiThere := by
  exact ⟨rfl, by decide⟩

/-- Claim C4 (amended): for every split in which `"Hi there!"` is cut
into arbitrary non-empty token pieces and the marker `"<|im_end|>"`
then arrives as one complete token piece (with enough token budget and
no stop request), the run returns exactly `"Hi there!"` and the sink
receives exactly the pieces of `"Hi there!"` — no fragment of the
marker.  For splits that break the marker across the text piece
boundary in other ways the original claim fails
(`claim4_counterexample`). -/
theorem claim4_amended :
    ∀ (ps : List (List Nat)) (g q : Bool) (mt : Int) (sched : Nat → Bool),
    ps.flatten = hiThere →
    (∀ p ∈ ps, p ≠ []) →
    ps.length < maxGenOf mt →
    (∀ i, i ≤ ps.length → sched i = false) →
    (nativeGenerate ⟨true, true, g, q⟩ true true mt sched
        (ps.map (fun p => TokenEv.piece p true) ++ [TokenEv.piece imEnd true])).1.output =
      .ok hiThere ∧
    (nativeGenerate ⟨true, true, g, q⟩ true true mt sched
        (ps.map (fun p => TokenEv.piece p true) ++ [TokenEv.piece imEnd true])).1.emits =
      ps := by
  intro ps g q mt sched hflat hne hlen hsched
  have hloop := claim4_loop sched (maxGenOf mt) ps [] 0 [] 0
    (by simpa using hflat) hne (by simpa using hlen) (by simpa using hsched)
  unfold nativeGenerate
  rw [if_pos ⟨rfl, rfl⟩, if_pos rfl, if_pos rfl]
  simp only []
  rw [hloop]
  constructor
  · rfl
  · simp [flushStep]

/-- Claim C4 witness: the split `["Hi ", "there!"]` followed by the
marker as one token returns exactly `"Hi there!"`. -/
theorem claim4_amended_witness :
    ([[72, 105, 32], [116, 104, 101, 114, 101, 33]] : List (List Nat)).flatten = hiThere ∧
    (nativeGenerate ⟨true, true, false, false⟩ true true 5 (fun _ => false)
        (([[72, 105, 32], [116, 104, 101, 114, 101, 33]] : List (List Nat)).map
            (fun p => TokenEv.piece p true) ++ [TokenEv.piece imEnd true])).1.output =
      .ok hiThere := by
  refine ⟨by decide, (claim4_amended [[72, 105, 32], [116, 104, 101, 114, 101, 33]]
    false false 5 (fun _ => false) (by decide) (by decide) (by decide) (fun i _ => rfl)).1⟩

end GrapheneLlama
